import Mathlib

/-!
Shallow embedding of `homemade.py` (move-selection strategies for a chess
bot) and verification of the specification's claims about it.

The game-rules engine (`python-chess`) is an external collaborator: legal
move generation, board mutation (`push`/`pop`), and move notation are
consumed through a narrow interface.  A board is therefore modelled by its
observable game tree: the side to move, the per-colour piece counts, and
the children reachable by one legal move.  A `Move` is identified by its
long-form (UCI) string, which is exactly what Python's `str(move)` yields.
-/

/-- A chess move, identified by its UCI (long-form) string.  `str(move)` in
the Python source is exactly this string. -/
abbrev Move := String

/-- Per-colour piece counts, the lengths `len(board.pieces(piece_type, colour))`
observed by `Sciasa.evaluate_board`. -/
structure PieceCounts where
  pawn : Nat
  knight : Nat
  bishop : Nat
  rook : Nat
  queen : Nat
  king : Nat
deriving DecidableEq

/-- The piece types of `python-chess` that appear in the source. -/
inductive PieceType where
  | pawn
  | knight
  | bishop
  | rook
  | queen
  | king
deriving DecidableEq

/-- A board position, modelled as its observable game tree: side to move
(`true` = `chess.WHITE`), the white and black piece counts, and the list of
`(move, resulting position)` pairs for the legal moves, in the rules
engine's generation order. -/
inductive Board where
  | node : Bool → PieceCounts → PieceCounts → List (Move × Board) → Board

/-- `board.turn` (`true` = `chess.WHITE`). -/
def Board.turn : Board → Bool
  | .node t _ _ _ => t

/-- The white piece counts of a position. -/
def Board.whitePieces : Board → PieceCounts
  | .node _ w _ _ => w

/-- The black piece counts of a position. -/
def Board.blackPieces : Board → PieceCounts
  | .node _ _ bl _ => bl

/-- The `(move, resulting position)` pairs for the legal moves of a
position, in generation order. -/
def Board.children : Board → List (Move × Board)
  | .node _ _ _ cs => cs

/-- Count of one piece type in one colour's counts. -/
def PieceCounts.count (c : PieceCounts) : PieceType → Nat
  | .pawn => c.pawn
  | .knight => c.knight
  | .bishop => c.bishop
  | .rook => c.rook
  | .queen => c.queen
  | .king => c.king

/-- `len(board.pieces(piece_type, colour))` (`true` = `chess.WHITE`). -/
def Board.pieces (b : Board) (pt : PieceType) (colour : Bool) : Nat :=
  (if colour then b.whitePieces else b.blackPieces).count pt

/-- `board.legal_moves`, as the list of moves in generation order. -/
def Board.legal_moves (b : Board) : List Move :=
  b.children.map Prod.fst

/-- `chess.engine.PlayResult(move, ponder, draw_offered=...)`. -/
structure PlayResult where
  move : Option Move
  ponder : Option Move
  draw_offered : Bool := false
deriving DecidableEq

/-- The `piece_values` table of `Sciasa.evaluate_board`:
`{PAWN: 1, KNIGHT: 3, BISHOP: 3, ROOK: 5, QUEEN: 9}`, iterated in insertion
order. -/
def piece_values : List (PieceType × Int) :=
  [(.pawn, 1), (.knight, 3), (.bishop, 3), (.rook, 5), (.queen, 9)]

/-- `Sciasa.evaluate_board`: for each entry of `piece_values`,
`score += len(white pieces) * value` then `score -= len(black pieces) * value`. -/
def Sciasa.evaluate_board (board : Board) : Int :=
  piece_values.foldl
    (fun score pv =>
      score + (board.pieces pv.1 true : Int) * pv.2
        - (board.pieces pv.1 false : Int) * pv.2)
    0

/-- The running best-evaluation comparison of `Sciasa.search`.
`best_evaluation` starts as `float('-inf')` (white to move at the root) or
`float('inf')` (black), modelled by `none`; every finite evaluation beats
the infinite initial value, so the first comparison always succeeds. -/
def better (rootTurn : Bool) (evaluation : Int) : Option Int → Bool
  | none => true
  | some best => if rootTurn then evaluation > best else evaluation < best

/-- Lines 96–99 of the source: for each legal `move` of `current_board`,
`push(move)`, append `(current_board.copy(), current_depth + 1, move)` to
the queue, `pop()`.  Note the queued triple stores `move`, the move just
applied, as its leading move. -/
def expand (b : Board) (d : Nat) : List (Board × Nat × Option Move) :=
  b.children.map (fun mc => (mc.2, d + 1, some mc.1))

/-- Number of nodes of the game tree truncated `k` plies below `b`; the
termination measure of one BFS queue item. -/
def nodesUpTo : Nat → Board → Nat
  | 0, _ => 1
  | k + 1, b => 1 + (b.children.map (fun mc => nodesUpTo k mc.2)).sum

theorem one_le_nodesUpTo (k : Nat) (b : Board) : 1 ≤ nodesUpTo k b := by
  cases k <;> simp [nodesUpTo]

/-- Termination measure of the whole BFS queue. -/
def queueMeasure (depth : Int) (q : List (Board × Nat × Option Move)) : Nat :=
  (q.map (fun it => nodesUpTo (depth - it.2.1).toNat it.1)).sum

theorem queueMeasure_cons (depth : Int) (b : Board) (d : Nat) (lm : Option Move)
    (rest : List (Board × Nat × Option Move)) :
    queueMeasure depth ((b, d, lm) :: rest)
      = nodesUpTo (depth - d).toNat b + queueMeasure depth rest := by
  simp [queueMeasure]

theorem queueMeasure_append (depth : Int) (q q' : List (Board × Nat × Option Move)) :
    queueMeasure depth (q ++ q') = queueMeasure depth q + queueMeasure depth q' := by
  simp [queueMeasure]

theorem queueMeasure_expand (depth : Int) (b : Board) (d : Nat) (h : (d : Int) < depth) :
    queueMeasure depth (expand b d) + 1 = nodesUpTo (depth - d).toNat b := by
  have htn : (depth - d).toNat = (depth - (d + 1)).toNat + 1 := by omega
  rw [htn]
  simp only [queueMeasure, expand, List.map_map, nodesUpTo]
  have : ∀ mc : Move × Board,
      ((fun it : Board × Nat × Option Move => nodesUpTo (depth - it.2.1).toNat it.1) ∘
        fun mc : Move × Board => (mc.2, d + 1, some mc.1)) mc
      = nodesUpTo (depth - (d + 1)).toNat mc.2 := by
    intro mc
    simp only [Function.comp]
    congr 1
  rw [List.map_congr_left (fun mc _ => this mc)]
  omega

/-- The `while queue:` loop of `Sciasa.search` (lines 76–99): pop the left
item; if its depth has reached the target, evaluate and update the running
best; otherwise append the expansion of its position to the right of the
queue. -/
def Sciasa.bfs (depth : Int) (rootTurn : Bool) :
    List (Board × Nat × Option Move) → Option Move → Option Int → PlayResult
  | [], best_move, _ => { move := best_move, ponder := none }
  | (b, d, lm) :: rest, best_move, best_evaluation =>
    if (d : Int) ≥ depth then
      let evaluation := Sciasa.evaluate_board b
      if better rootTurn evaluation best_evaluation then
        Sciasa.bfs depth rootTurn rest lm (some evaluation)
      else
        Sciasa.bfs depth rootTurn rest best_move best_evaluation
    else
      Sciasa.bfs depth rootTurn (rest ++ expand b d) best_move best_evaluation
termination_by q _ _ => queueMeasure depth q
decreasing_by
  · rw [queueMeasure_cons]
    have := one_le_nodesUpTo (depth - d).toNat b
    omega
  · rw [queueMeasure_cons]
    have := one_le_nodesUpTo (depth - d).toNat b
    omega
  · rw [queueMeasure_cons, queueMeasure_append]
    have := queueMeasure_expand depth b d (by omega)
    omega

/-- `Sciasa.search`: depth defaults to 2, overridden by an integer first
argument; the queue is seeded with `(board.copy(), 0, None)`; returns
`PlayResult(best_move, None)`. -/
def Sciasa.search (board : Board) (args : Option Int) : PlayResult :=
  let depth : Int := args.getD 2
  Sciasa.bfs depth board.turn [(board, 0, none)] none none

/-- `random.choice(l)` with its entropy draw made explicit: `r` is the
index supplied by the shared randomness source, reduced uniformly onto the
list (each element is hit by equally many residues of `r`).  An empty list
raises `IndexError`, modelled by `none`. -/
def randomChoice {α : Type} (l : List α) (r : Nat) : Option α :=
  l.get? (r % l.length)

/-- `RandomMove.search`: `PlayResult(random.choice(list(board.legal_moves)), None)`.
`none` models the `IndexError` raised when the position has no legal move. -/
def RandomMove.search (board : Board) (r : Nat) : Option PlayResult :=
  (randomChoice board.legal_moves r).map (fun m => { move := some m, ponder := none })

/-- Python's `list.sort(key=board.san)`: a stable sort comparing the
short-form (SAN) keys, `san` being the external notation function of the
rules engine. -/
def sortBySan (san : Move → String) (moves : List Move) : List Move :=
  moves.mergeSort (fun a b => decide (san a ≤ san b))

/-- `Alphabetical.search`: sort the legal moves by `board.san` and return
the first (`moves[0]` raises `IndexError` on an empty list, modelled by
`none`). -/
def Alphabetical.search (board : Board) (san : Move → String) : Option PlayResult :=
  ((sortBySan san board.legal_moves).head?).map
    (fun m => { move := some m, ponder := none })

/-- Python's `list.sort(key=str)`: a stable sort comparing the UCI strings,
which are the moves themselves in this model. -/
def sortByStr (moves : List Move) : List Move :=
  moves.mergeSort (fun a b => decide (a ≤ b))

/-- `FirstMove.search`: sort the legal moves by `str` and return the first
(`moves[0]` raises `IndexError` on an empty list, modelled by `none`). -/
def FirstMove.search (board : Board) : Option PlayResult :=
  ((sortByStr board.legal_moves).head?).map
    (fun m => { move := some m, ponder := none })

/-- `chess.engine.Limit` as consumed by `ComboEngine.search`: each field is
`some n` when it holds a value for which `isinstance(_, int)` is true, and
`none` when it is absent or non-integer. -/
structure Limit where
  time : Option Int := none
  white_clock : Option Int := none
  white_inc : Option Int := none
  black_clock : Option Int := none
  black_inc : Option Int := none
deriving DecidableEq

/-- Lines 163–187 of the source: derive `(my_time, my_inc)` from the
`Limit` — the fixed `time` if integral (with increment 0), else the mover's
clock and increment, defaulting each to 0 when absent or non-integer. -/
def myClock (board : Board) (time_limit : Limit) : Int × Int :=
  match time_limit.time with
  | some t => (t, 0)
  | none =>
    if board.turn then
      (time_limit.white_clock.getD 0, time_limit.white_inc.getD 0)
    else
      (time_limit.black_clock.getD 0, time_limit.black_inc.getD 0)

/-- Lines 189–193 of the source: `possible_moves` is `root_moves` whenever
`root_moves` is a list (even an empty one), and `list(board.legal_moves)`
otherwise. -/
def possibleMoves (board : Board) (root_moves : Option (List Move)) : List Move :=
  match root_moves with
  | some l => l
  | none => board.legal_moves

/-- The time-generosity test of line 195, `my_time / 60 + my_inc > 10`,
with Python's true division modelled exactly over `ℚ`. -/
def generousTime (my_time my_inc : Int) : Prop :=
  (my_time : ℚ) / 60 + (my_inc : ℚ) > 10

instance (my_time my_inc : Int) : Decidable (generousTime my_time my_inc) := by
  unfold generousTime
  infer_instance

/-- `ComboEngine.search`.  The first component is the returned
`PlayResult` (`none` models the `IndexError` raised when `possible_moves`
is empty); the second component is the final contents of the caller's
`root_moves` list object after the call (`none` when no list was passed) —
`possible_moves` aliases `root_moves` when the latter is a list, and the
deterministic branch sorts it in place. -/
def ComboEngine.search (board : Board) (time_limit : Limit)
    (ponder : Bool) (draw_offered : Bool) (root_moves : Option (List Move))
    (r : Nat) : Option PlayResult × Option (List Move) :=
  let mt := (myClock board time_limit).1
  let mi := (myClock board time_limit).2
  let possible_moves := possibleMoves board root_moves
  if generousTime mt mi then
    ((randomChoice possible_moves r).map
        (fun m => { move := some m, ponder := none, draw_offered := draw_offered }),
      root_moves)
  else
    let sorted := sortByStr possible_moves
    (sorted.head?.map
        (fun m => { move := some m, ponder := none, draw_offered := draw_offered }),
      root_moves.map (fun _ => sorted))

/-- Piece counts of the initial position for either colour; material is
balanced, so `Sciasa.evaluate_board` scores 0 everywhere below. -/
def eqCounts : PieceCounts :=
  { pawn := 8, knight := 2, bishop := 2, rook := 2, queen := 1, king := 1 }

/-- The move `e2e4` (long form). -/
def mvE2e4 : Move := "e2e4"

/-- The move `g8f6` (long form). -/
def mvG8f6 : Move := "g8f6"

/-- A position with no legal moves (white to move). -/
def tLeaf : Board := .node true eqCounts eqCounts []

/-- A position with black to move whose only legal move is `g8f6`. -/
def tBlack : Board := .node false eqCounts eqCounts [(mvG8f6, tLeaf)]

/-- A root position (white to move) whose only legal move is `e2e4`,
answered only by `g8f6`. -/
def tRoot : Board := .node true eqCounts eqCounts [(mvE2e4, tBlack)]

/-- A position with black to move and no legal moves at all. -/
def tStuck : Board := .node false eqCounts eqCounts []

/-- A root position (white to move) whose only legal move `e2e4` leads to a
position with no legal moves, so no node ever reaches depth 2. -/
def tShallow : Board := .node true eqCounts eqCounts [(mvE2e4, tStuck)]

/-- A root position (white to move) with no legal moves. -/
def emptyRoot : Board := .node true eqCounts eqCounts []

/-- C1: the claim fails on the code.  On `tRoot`, whose legal-move list is
the non-empty `[e2e4]`, `Sciasa.search` at its default depth returns
`g8f6` — the reply available only after `e2e4` — which is not a legal move
of the root position.  (The queue items of lines 95–99 store the move just
applied rather than the root move, so the frontier's best node hands back
the last move of its line.) -/
theorem c1_sciasa_returns_illegal_move :
    tRoot.legal_moves = [mvE2e4] ∧
    Sciasa.search tRoot none = { move := some mvG8f6, ponder := none } ∧
    mvG8f6 ∉ tRoot.legal_moves ∧
    mvG8f6 ∈ tBlack.legal_moves := by
  refine ⟨rfl, ?_, by decide, by decide⟩
  simp +decide [Sciasa.search, Sciasa.bfs, expand, tRoot, tBlack, tLeaf, Board.children,
    Board.turn, better, Sciasa.evaluate_board, piece_values, Board.pieces,
    PieceCounts.count, eqCounts, Board.whitePieces, Board.blackPieces, mvE2e4, mvG8f6]

/-- C2: the claim fails on the code.  Expanding the depth-1 node `tBlack`
(whose own leading move is `e2e4`) pushes a queue item whose stored move is
`g8f6`, the move just applied, not the parent's leading move `e2e4`; and
running the loop on that depth-1 node with leading move `e2e4` returns
`g8f6`, so the deeper descendant did not inherit the depth-1 ancestor's
move. -/
theorem c2_expansion_stores_applied_move :
    expand tBlack 1 = [(tLeaf, 2, some mvG8f6)] ∧
    Sciasa.bfs 2 true [(tBlack, 1, some mvE2e4)] none none
      = { move := some mvG8f6, ponder := none } := by
  refine ⟨rfl, ?_⟩
  simp +decide [Sciasa.bfs, expand, tBlack, tLeaf, Board.children, better,
    Sciasa.evaluate_board, piece_values, Board.pieces, PieceCounts.count, eqCounts,
    Board.whitePieces, Board.blackPieces, mvG8f6]

/-- C9: on `tShallow`, whose legal-move list is the non-empty `[e2e4]` but
where every root move leads to a position with no legal moves, no node ever
reaches the default target depth 2, so `best_move` is never assigned and
`Sciasa.search` returns `PlayResult(None, None)`. -/
theorem c9_search_returns_none_move :
    tShallow.legal_moves = [mvE2e4] ∧
    Sciasa.search tShallow none = { move := none, ponder := none } := by
  refine ⟨rfl, ?_⟩
  simp +decide [Sciasa.search, Sciasa.bfs, expand, tShallow, tStuck, Board.children,
    Board.turn]

/-- C3, counterexample: on the root position `emptyRoot`, which has an
empty legal-move set, `Sciasa.search` does not signal any fatal condition:
it completes normally and returns the null result `PlayResult(None, None)`,
contradicting the claim that every strategy signals the condition
distinctly rather than returning a null move. -/
theorem c3_counterexample :
    emptyRoot.legal_moves = [] ∧
    Sciasa.search emptyRoot none = { move := none, ponder := none } := by
  refine ⟨rfl, ?_⟩
  simp +decide [Sciasa.search, Sciasa.bfs, expand, emptyRoot, Board.children, Board.turn]

/-- C3, amended: on a root position with no legal moves, `RandomMove`,
`Alphabetical`, `FirstMove` and `ComboEngine` (without a root-move
restriction) each raise (`random.choice` or `moves[0]` on an empty list,
modelled by `none`); `Sciasa.search`, however, completes normally and
returns `PlayResult(None, None)` instead of signalling. -/
theorem c3_amended_empty_root (b : Board) (h : b.legal_moves = [])
    (san : Move → String) (r : Nat) (tl : Limit) (p d : Bool) :
    RandomMove.search b r = none ∧
    Alphabetical.search b san = none ∧
    FirstMove.search b = none ∧
    (ComboEngine.search b tl p d none r).1 = none ∧
    Sciasa.search b none = { move := none, ponder := none } := by
  have hch : b.children = [] := by
    have := h
    unfold Board.legal_moves at this
    exact List.map_eq_nil_iff.mp this
  refine ⟨?_, ?_, ?_, ?_, ?_⟩
  · simp [RandomMove.search, randomChoice, h]
  · simp [Alphabetical.search, sortBySan, h]
  · simp [FirstMove.search, sortByStr, h]
  · by_cases hg : generousTime (myClock b tl).1 (myClock b tl).2
    · simp [ComboEngine.search, hg, possibleMoves, randomChoice, h]
    · simp [ComboEngine.search, hg, possibleMoves, sortByStr, h]
  · cases b with
    | node t w bl cs =>
      cases hch
      simp [Sciasa.search, Sciasa.bfs, expand, Board.children, Board.turn]

/-- The identity notation function, standing in for an external notation
function in concrete instantiations. -/
def sanId : Move → String := fun m => m

/-- C3, witness: the amended statement discharged on the concrete position
`emptyRoot`. -/
theorem c3_amended_empty_root_witness :
    emptyRoot.legal_moves = [] ∧
    (RandomMove.search emptyRoot 0 = none ∧
      Alphabetical.search emptyRoot sanId = none ∧
      FirstMove.search emptyRoot = none ∧
      (ComboEngine.search emptyRoot {} false false none 0).1 = none ∧
      Sciasa.search emptyRoot none = { move := none, ponder := none }) :=
  ⟨rfl, c3_amended_empty_root emptyRoot rfl sanId 0 {} false false⟩

/-- C7: `Sciasa.evaluate_board` is exactly the sum, over the piece-value
table `{pawn: 1, knight: 3, bishop: 3, rook: 5, queen: 9}`, of (white's
count minus black's count) times the table value; and the king counts of
either side never affect the result. -/
theorem c7_evaluate_board_spec :
    (∀ b : Board,
      Sciasa.evaluate_board b =
        ((b.pieces .pawn true : Int) - (b.pieces .pawn false : Int)) * 1
        + ((b.pieces .knight true : Int) - (b.pieces .knight false : Int)) * 3
        + ((b.pieces .bishop true : Int) - (b.pieces .bishop false : Int)) * 3
        + ((b.pieces .rook true : Int) - (b.pieces .rook false : Int)) * 5
        + ((b.pieces .queen true : Int) - (b.pieces .queen false : Int)) * 9) ∧
    (∀ (t : Bool) (w bl : PieceCounts) (cs : List (Move × Board)) (wk bk : Nat),
      Sciasa.evaluate_board (.node t { w with king := wk } { bl with king := bk } cs)
        = Sciasa.evaluate_board (.node t w bl cs)) := by
  constructor
  · intro b
    simp [Sciasa.evaluate_board, piece_values]
    ring
  · intro t w bl cs wk bk
    simp [Sciasa.evaluate_board, piece_values, Board.pieces, Board.whitePieces,
      Board.blackPieces, PieceCounts.count]

theorem sortByStr_head_min (l : List Move) (m : Move)
    (h : (sortByStr l).head? = some m) : m ∈ l ∧ ∀ m' ∈ l, m ≤ m' := by
  have htrans : ∀ a b c : Move, (fun a b : Move => decide (a ≤ b)) a b →
      (fun a b : Move => decide (a ≤ b)) b c → (fun a b : Move => decide (a ≤ b)) a c := by
    intro a b c hab hbc
    simp only [decide_eq_true_eq] at *
    exact le_trans hab hbc
  have htotal : ∀ a b : Move,
      ((fun a b : Move => decide (a ≤ b)) a b || (fun a b : Move => decide (a ≤ b)) b a) := by
    intro a b
    simpa using le_total a b
  have hsorted := List.sorted_mergeSort htrans htotal l
  obtain ⟨t, ht⟩ : ∃ t, sortByStr l = m :: t := by
    cases hs : sortByStr l with
    | nil => rw [hs] at h; simp at h
    | cons x xs =>
      rw [hs] at h
      simp at h
      exact ⟨xs, by rw [h]⟩
  constructor
  · have hmem : m ∈ sortByStr l := by
      rw [ht]
      exact List.mem_cons_self m t
    unfold sortByStr at hmem
    rwa [List.mem_mergeSort] at hmem
  · intro m' hm'
    have hm'' : m' ∈ m :: t := by
      rw [← ht]
      unfold sortByStr
      rw [List.mem_mergeSort]
      exact hm'
    rcases List.mem_cons.mp hm'' with rfl | hm''
    · exact le_refl m'
    · unfold sortByStr at ht
      rw [ht] at hsorted
      have := (List.pairwise_cons.mp hsorted).1 m' hm''
      simpa using this

theorem generousTime_700 : generousTime 700 0 := by
  norm_num [generousTime]

theorem not_generousTime_300 : ¬ generousTime 300 0 := by
  norm_num [generousTime]

/-- C4: `ComboEngine.search` takes the random branch exactly when
`my_time / 60 + my_inc > 10` and otherwise returns the minimum of the
candidate set under long-form (UCI string) ordering; with `time=700` the
condition holds (700/60 > 10) and with `time=300` it fails (5 ≤ 10), where
`myClock` yields `(700, 0)` and `(300, 0)` respectively. -/
theorem c4_time_budget_policy :
    (∀ (b : Board) (tl : Limit) (p d : Bool) (rm : Option (List Move)) (r : Nat),
      generousTime (myClock b tl).1 (myClock b tl).2 →
        ComboEngine.search b tl p d rm r
          = ((randomChoice (possibleMoves b rm) r).map
              (fun m => { move := some m, ponder := none, draw_offered := d }), rm)) ∧
    (∀ (b : Board) (tl : Limit) (p d : Bool) (rm : Option (List Move)) (r : Nat),
      ¬ generousTime (myClock b tl).1 (myClock b tl).2 →
        (ComboEngine.search b tl p d rm r).1
          = (sortByStr (possibleMoves b rm)).head?.map
              (fun m => { move := some m, ponder := none, draw_offered := d })) ∧
    (∀ (b : Board) (tl : Limit) (p d : Bool) (rm : Option (List Move)) (r : Nat)
        (res : PlayResult) (m : Move),
      ¬ generousTime (myClock b tl).1 (myClock b tl).2 →
        (ComboEngine.search b tl p d rm r).1 = some res → res.move = some m →
          m ∈ possibleMoves b rm ∧ ∀ m' ∈ possibleMoves b rm, m ≤ m') ∧
    (∀ b : Board, myClock b { time := some 700 } = (700, 0)) ∧
    generousTime 700 0 ∧
    (∀ b : Board, myClock b { time := some 300 } = (300, 0)) ∧
    ¬ generousTime 300 0 := by
  refine ⟨?_, ?_, ?_, fun b => rfl, generousTime_700, fun b => rfl, not_generousTime_300⟩
  · intro b tl p d rm r hg
    simp [ComboEngine.search, hg]
  · intro b tl p d rm r hg
    simp [ComboEngine.search, hg]
  · intro b tl p d rm r res m hg hres hm
    have h1 : (ComboEngine.search b tl p d rm r).1
        = (sortByStr (possibleMoves b rm)).head?.map
          (fun m => { move := some m, ponder := none, draw_offered := d }) := by
      simp [ComboEngine.search, hg]
    rw [h1] at hres
    rcases Option.map_eq_some'.mp hres with ⟨m0, hh, hf⟩
    have hmm : res.move = some m0 := by
      rw [← hf]
    rw [hm] at hmm
    obtain rfl : m = m0 := Option.some.inj hmm
    exact sortByStr_head_min _ m hh

/-- C5: the candidate move set of `ComboEngine.search` is the supplied
root-move restriction when that restriction is a non-empty list, and the
full legal-move set when no restriction is supplied; an empty (non-null)
restriction makes the call raise (`random.choice` or `moves[0]` on the
empty candidate list), modelled by `none`, rather than return a move. -/
theorem c5_candidate_set_and_empty_restriction :
    (∀ (b : Board) (l : List Move), l ≠ [] → possibleMoves b (some l) = l) ∧
    (∀ b : Board, possibleMoves b none = b.legal_moves) ∧
    (∀ (b : Board) (tl : Limit) (p d : Bool) (r : Nat),
      (ComboEngine.search b tl p d (some []) r).1 = none) := by
  refine ⟨fun b l _ => rfl, fun b => rfl, ?_⟩
  intro b tl p d r
  by_cases hg : generousTime (myClock b tl).1 (myClock b tl).2
  · simp [ComboEngine.search, hg, possibleMoves, randomChoice]
  · simp [ComboEngine.search, hg, possibleMoves, sortByStr]

/-- C6: whenever a non-empty root-move restriction is supplied and the call
returns a result, the returned move is an element of the restriction list,
in the random branch and in the deterministic branch alike. -/
theorem c6_restricted_move_membership (b : Board) (tl : Limit) (p d : Bool)
    (l : List Move) (r : Nat) (res : PlayResult) (m : Move) (hl : l ≠ [])
    (hres : (ComboEngine.search b tl p d (some l) r).1 = some res)
    (hm : res.move = some m) : m ∈ l := by
  by_cases hg : generousTime (myClock b tl).1 (myClock b tl).2
  · have h1 : (ComboEngine.search b tl p d (some l) r).1
        = (randomChoice l r).map
          (fun m => { move := some m, ponder := none, draw_offered := d }) := by
      simp [ComboEngine.search, hg, possibleMoves]
    rw [h1] at hres
    rcases Option.map_eq_some'.mp hres with ⟨m0, hh, hf⟩
    have hmm : res.move = some m0 := by
      rw [← hf]
    rw [hm] at hmm
    obtain rfl : m = m0 := Option.some.inj hmm
    exact List.get?_mem hh
  · have h1 : (ComboEngine.search b tl p d (some l) r).1
        = (sortByStr l).head?.map
          (fun m => { move := some m, ponder := none, draw_offered := d }) := by
      simp [ComboEngine.search, hg, possibleMoves]
    rw [h1] at hres
    rcases Option.map_eq_some'.mp hres with ⟨m0, hh, hf⟩
    have hmm : res.move = some m0 := by
      rw [← hf]
    rw [hm] at hmm
    obtain rfl : m = m0 := Option.some.inj hmm
    exact (sortByStr_head_min l m hh).1

/-- C6, witness: with restriction `[e2e4]` and `time=300` (deterministic
branch) the call succeeds and the returned move `e2e4` lies in the
restriction. -/
theorem c6_restricted_move_membership_witness :
    (ComboEngine.search emptyRoot { time := some 300 } false false (some [mvE2e4]) 0).1
      = some { move := some mvE2e4, ponder := none, draw_offered := false } ∧
    mvE2e4 ∈ [mvE2e4] :=
  have hres : (ComboEngine.search emptyRoot { time := some 300 } false false
      (some [mvE2e4]) 0).1
      = some { move := some mvE2e4, ponder := none, draw_offered := false } := by
    simp [ComboEngine.search, myClock, not_generousTime_300, possibleMoves, sortByStr]
  ⟨hres,
    c6_restricted_move_membership emptyRoot { time := some 300 } false false
      [mvE2e4] 0 { move := some mvE2e4, ponder := none, draw_offered := false }
      mvE2e4 (by simp) hres rfl⟩

/-- C10: when a root-move list is supplied and the deterministic branch is
taken, the caller's list object ends the call holding its elements sorted
by UCI string — `possible_moves` aliases `root_moves` and
`possible_moves.sort(key=str)` reorders it in place, as the concrete
two-element instance shows. -/
theorem c10_root_moves_sorted_in_place :
    (∀ (b : Board) (tl : Limit) (p d : Bool) (l : List Move) (r : Nat),
      ¬ generousTime (myClock b tl).1 (myClock b tl).2 →
        (ComboEngine.search b tl p d (some l) r).2 = some (sortByStr l)) ∧
    (ComboEngine.search emptyRoot { time := some 300 } false false
        (some [mvG8f6, mvE2e4]) 0).2 = some [mvE2e4, mvG8f6] ∧
    ([mvE2e4, mvG8f6] : List Move) ≠ [mvG8f6, mvE2e4] := by
  refine ⟨?_, ?_, by decide⟩
  · intro b tl p d l r hg
    simp [ComboEngine.search, hg, possibleMoves]
  · simp +decide [ComboEngine.search, myClock, not_generousTime_300, possibleMoves,
      sortByStr, List.mergeSort, List.splitInTwo, List.merge, mvE2e4, mvG8f6]

/-- A `chess.Board` object as `Sciasa.search` uses it: the current position
together with the undo stack that `push` grows and `pop` consumes. -/
structure BoardObj where
  cur : Board
  undo : List Board

/-- The Python heap, restricted to the board objects a search call touches:
object identities are indices, `board.copy()` allocates a fresh index. -/
abbrev Heap := List BoardObj

/-- The position reached from `b` by the legal move `m` (the rules engine's
transition consumed by `push`). -/
def Board.childAfter (b : Board) (m : Move) : Option Board :=
  (b.children.find? (fun mc => mc.1 == m)).map Prod.snd

/-- `board.push(move)`: advance to the child position, remembering the
current one on the undo stack; only defined for legal moves, which is how
the loop uses it. -/
def BoardObj.push (o : BoardObj) (m : Move) : Option BoardObj :=
  (o.cur.childAfter m).map (fun c => { cur := c, undo := o.cur :: o.undo })

/-- `board.pop()`: restore the previous position from the undo stack. -/
def BoardObj.pop : BoardObj → Option BoardObj
  | { cur := _, undo := [] } => none
  | { cur := _, undo := p :: rest } => some { cur := p, undo := rest }

/-- Mutate the object at index `id` in place. -/
def heapModify (h : Heap) (id : Nat) (f : BoardObj → Option BoardObj) : Option Heap :=
  h[id]?.bind (fun o => (f o).map (fun o' => h.set id o'))

/-- `board.copy()`: allocate a fresh object with the same value; its index
is the old heap length. -/
def heapCopy (h : Heap) (id : Nat) : Option (Heap × Nat) :=
  h[id]?.map (fun o => (h ++ [o], h.length))

/-- One iteration of the move loop of lines 96–99, on the heap:
`current_board.push(move)`, then `queue.append((current_board.copy(),
current_depth + 1, move))`, then `current_board.pop()`. -/
def expandStep (id : Nat) (d : Nat)
    (acc : Heap × List (Nat × Nat × Option Move)) (m : Move) :
    Option (Heap × List (Nat × Nat × Option Move)) :=
  (heapModify acc.1 id (fun ob => ob.push m)).bind (fun h1 =>
    (heapCopy h1 id).bind (fun hc =>
      (heapModify hc.1 id BoardObj.pop).map (fun h3 =>
        (h3, acc.2 ++ [(hc.2, d + 1, some m)]))))

/-- Lines 96–99 on the heap: run `expandStep` over all legal moves of the
object at `id`, returning the final heap and the queue items appended. -/
def expandImp (h : Heap) (id : Nat) (d : Nat) :
    Option (Heap × List (Nat × Nat × Option Move)) :=
  h[id]?.bind (fun o => o.cur.legal_moves.foldlM (expandStep id d) (h, []))

/-- The `while queue:` loop of `Sciasa.search` on the heap, with explicit
fuel (`none` when the fuel runs out before the queue empties); queue items
are `(object index, depth, leading move)`. -/
def Sciasa.bfsImp (depth : Int) (rootTurn : Bool) :
    Nat → Heap → List (Nat × Nat × Option Move) → Option Move → Option Int →
    Option (PlayResult × Heap)
  | 0, _, _, _, _ => none
  | _ + 1, h, [], best_move, _ => some ({ move := best_move, ponder := none }, h)
  | fuel + 1, h, (id, d, lm) :: rest, best_move, best_evaluation =>
    if (d : Int) ≥ depth then
      h[id]?.bind (fun o =>
        let evaluation := Sciasa.evaluate_board o.cur
        if better rootTurn evaluation best_evaluation then
          Sciasa.bfsImp depth rootTurn fuel h rest lm (some evaluation)
        else
          Sciasa.bfsImp depth rootTurn fuel h rest best_move best_evaluation)
    else
      (expandImp h id d).bind (fun hi =>
        Sciasa.bfsImp depth rootTurn fuel hi.1 (rest ++ hi.2) best_move best_evaluation)

/-- `Sciasa.search` on the heap: the caller's board lives at index `bid`;
the call reads `board.turn`, seeds the queue with `(board.copy(), 0, None)`
and runs the loop. -/
def Sciasa.searchImp (h : Heap) (bid : Nat) (args : Option Int) (fuel : Nat) :
    Option (PlayResult × Heap) :=
  let depth : Int := args.getD 2
  h[bid]?.bind (fun o =>
    (heapCopy h bid).bind (fun hc =>
      Sciasa.bfsImp depth o.cur.turn fuel hc.1 [(hc.2, 0, none)] none none))

theorem heapModify_spec (h : Heap) (id : Nat) (f : BoardObj → Option BoardObj)
    (h' : Heap) (hm : heapModify h id f = some h') :
    h'.length = h.length ∧ ∀ j, j ≠ id → h'[j]? = h[j]? := by
  rcases Option.bind_eq_some.mp hm with ⟨o, hg, hfm⟩
  rcases Option.map_eq_some'.mp hfm with ⟨o', hf, hset⟩
  subst hset
  refine ⟨List.length_set _ _ _, fun j hj => ?_⟩
  exact List.getElem?_set_ne (fun e => hj e.symm)

theorem heapCopy_spec (h : Heap) (id : Nat) (h' : Heap) (nid : Nat)
    (hc : heapCopy h id = some (h', nid)) :
    nid = h.length ∧ h'.length = h.length + 1 ∧
      ∀ j, j < h.length → h'[j]? = h[j]? := by
  rcases Option.map_eq_some'.mp hc with ⟨o, hg, heq⟩
  injection heq with e1 e2
  subst e1
  subst e2
  refine ⟨rfl, by simp, fun j hj => ?_⟩
  exact List.getElem?_append_left hj

theorem expandStep_spec (id d : Nat) (h0 : Heap)
    (acc : List (Nat × Nat × Option Move)) (m : Move) (h1 : Heap)
    (out : List (Nat × Nat × Option Move))
    (hs : expandStep id d (h0, acc) m = some (h1, out)) :
    h1.length = h0.length + 1 ∧ out = acc ++ [(h0.length, d + 1, some m)] ∧
      ∀ j, j ≠ id → j < h0.length → h1[j]? = h0[j]? := by
  unfold expandStep at hs
  dsimp only at hs
  rcases Option.bind_eq_some.mp hs with ⟨hPushed, hA, hs2⟩
  rcases Option.bind_eq_some.mp hs2 with ⟨hcp, hB, hs3⟩
  rcases Option.map_eq_some'.mp hs3 with ⟨hPopped, hC, heq⟩
  injection heq with e1 e2
  subst e1
  subst e2
  obtain ⟨hlenA, hjA⟩ := heapModify_spec _ _ _ _ hA
  obtain ⟨hnid, hlenB, hjB⟩ := heapCopy_spec hPushed id hcp.1 hcp.2 hB
  obtain ⟨hlenC, hjC⟩ := heapModify_spec _ _ _ _ hC
  refine ⟨by omega, by rw [hnid, hlenA], fun j hj hjlt => ?_⟩
  rw [hjC j hj, hjB j (by omega), hjA j hj]

theorem foldl_expandStep_spec (id d : Nat) :
    ∀ (moves : List Move) (h0 : Heap) (acc : List (Nat × Nat × Option Move))
      (h1 : Heap) (out : List (Nat × Nat × Option Move)),
      List.foldlM (expandStep id d) (h0, acc) moves = some (h1, out) →
      h0.length ≤ h1.length ∧
        (∀ j, j ≠ id → j < h0.length → h1[j]? = h0[j]?) ∧
        (∀ it ∈ out, it ∈ acc ∨ h0.length ≤ it.1) := by
  intro moves
  induction moves with
  | nil =>
    intro h0 acc h1 out hf
    simp only [List.foldlM_nil] at hf
    cases hf
    exact ⟨le_refl _, fun j _ _ => rfl, fun it hit => Or.inl hit⟩
  | cons m ms ih =>
    intro h0 acc h1 out hf
    rw [List.foldlM_cons] at hf
    rcases Option.bind_eq_some.mp hf with ⟨st, hstep, hrest⟩
    obtain ⟨hlen, hout, hpres⟩ := expandStep_spec id d h0 acc m st.1 st.2 hstep
    obtain ⟨ihlen, ihpres, ihitems⟩ := ih st.1 st.2 h1 out hrest
    refine ⟨by omega, fun j hj hjlt => ?_, fun it hit => ?_⟩
    · rw [ihpres j hj (by omega), hpres j hj hjlt]
    · rcases ihitems it hit with hin | hge
      · rw [hout] at hin
        rcases List.mem_append.mp hin with hin | hin
        · exact Or.inl hin
        · simp at hin
          rw [hin]
          exact Or.inr (le_refl _)
      · exact Or.inr (by omega)

theorem expandImp_spec (h : Heap) (id d : Nat) (h' : Heap)
    (items : List (Nat × Nat × Option Move))
    (he : expandImp h id d = some (h', items)) :
    h.length ≤ h'.length ∧
      (∀ j, j ≠ id → j < h.length → h'[j]? = h[j]?) ∧
      (∀ it ∈ items, h.length ≤ it.1) := by
  unfold expandImp at he
  rcases Option.bind_eq_some.mp he with ⟨o, _, hf⟩
  obtain ⟨hlen, hpres, hitems⟩ := foldl_expandStep_spec id d _ h [] h' items hf
  refine ⟨hlen, hpres, fun it hit => ?_⟩
  rcases hitems it hit with hin | hge
  · simp at hin
  · exact hge

theorem bfsImp_frame (bid : Nat) (depth : Int) (rootTurn : Bool) :
    ∀ (fuel : Nat) (h : Heap) (q : List (Nat × Nat × Option Move))
      (bm : Option Move) (be : Option Int) (res : PlayResult) (h' : Heap),
      bid < h.length → (∀ it ∈ q, it.1 ≠ bid) →
      Sciasa.bfsImp depth rootTurn fuel h q bm be = some (res, h') →
      h'[bid]? = h[bid]? := by
  intro fuel
  induction fuel with
  | zero =>
    intro h q bm be res h' _ _ hrun
    simp [Sciasa.bfsImp] at hrun
  | succ fuel ih =>
    intro h q bm be res h' hbid hq hrun
    cases q with
    | nil =>
      unfold Sciasa.bfsImp at hrun
      injection hrun with hpair
      injection hpair with _ e2
      rw [← e2]
    | cons it rest =>
      obtain ⟨id, d, lm⟩ := it
      unfold Sciasa.bfsImp at hrun
      by_cases hd : (d : Int) ≥ depth
      · rw [if_pos hd] at hrun
        rcases Option.bind_eq_some.mp hrun with ⟨o, _, hrun2⟩
        dsimp only at hrun2
        by_cases hb : better rootTurn (Sciasa.evaluate_board o.cur) be
        · rw [if_pos hb] at hrun2
          exact ih h rest lm (some (Sciasa.evaluate_board o.cur))
            res h' hbid (fun x hx => hq x (List.mem_cons_of_mem _ hx)) hrun2
        · rw [if_neg hb] at hrun2
          exact ih h rest bm be res h' hbid
            (fun x hx => hq x (List.mem_cons_of_mem _ hx)) hrun2
      · rw [if_neg hd] at hrun
        rcases Option.bind_eq_some.mp hrun with ⟨hi, hexp, hrun2⟩
        obtain ⟨hlen, hpres, hitems⟩ :=
          expandImp_spec h id d hi.1 hi.2 (by rw [hexp])
        have hidbid : id ≠ bid := hq (id, d, lm) (List.mem_cons_self _ _)
        have hrec := ih hi.1 (rest ++ hi.2) bm be res h' (by omega) ?_ hrun2
        · rw [hrec]
          exact hpres bid (fun e => hidbid e.symm) hbid
        · intro x hx
          rcases List.mem_append.mp hx with hx | hx
          · exact hq x (List.mem_cons_of_mem _ hx)
          · have := hitems x hx
            omega

/-- C8: a completed `Sciasa.search` call leaves the caller's board object
unchanged on the heap: the loop only pushes and pops moves on the private
copies seeded from `board.copy()`, so whatever the fuel, whenever the call
completes, the object at the caller's index holds exactly the value it held
before the call. -/
theorem c8_search_leaves_caller_unchanged (h : Heap) (bid : Nat)
    (args : Option Int) (fuel : Nat) (res : PlayResult) (h' : Heap)
    (hrun : Sciasa.searchImp h bid args fuel = some (res, h')) :
    h'[bid]? = h[bid]? := by
  unfold Sciasa.searchImp at hrun
  rcases Option.bind_eq_some.mp hrun with ⟨o, hg, hrun2⟩
  rcases Option.bind_eq_some.mp hrun2 with ⟨hc, hcopy, hrun3⟩
  obtain ⟨hnid, hlen, hpres⟩ := heapCopy_spec h bid hc.1 hc.2 hcopy
  have hbid : bid < h.length := by
    rcases List.getElem?_eq_some_iff.mp hg with ⟨hlt, _⟩
    exact hlt
  have hframe := bfsImp_frame bid (args.getD 2) o.cur.turn fuel hc.1
    [(hc.2, 0, none)] none none res h' (by omega) ?_ hrun3
  · rw [hframe]
    exact hpres bid hbid
  · intro x hx
    simp at hx
    rw [hx]
    show hc.2 ≠ bid
    rw [hnid]
    omega

/-- A one-object heap holding the caller's board `tRoot`. -/
def heapC8 : Heap := [{ cur := tRoot, undo := [] }]

/-- The heap after running `Sciasa.searchImp` on `heapC8`: the caller's
object at index 0 is untouched; indices 1–3 are the copies the search
allocated (each restored by the balancing `pop`, plus the frontier copy). -/
def heapC8After : Heap :=
  [{ cur := tRoot, undo := [] }, { cur := tRoot, undo := [] },
    { cur := tBlack, undo := [tRoot] }, { cur := tLeaf, undo := [tBlack, tRoot] }]

/-- C8, witness: the concrete completed run on `heapC8` and the resulting
equality of the caller's slot before and after. -/
theorem c8_search_leaves_caller_unchanged_witness :
    Sciasa.searchImp heapC8 0 none 10
      = some ({ move := some mvG8f6, ponder := none }, heapC8After) ∧
    heapC8After[0]? = heapC8[0]? :=
  have hrun : Sciasa.searchImp heapC8 0 none 10
      = some ({ move := some mvG8f6, ponder := none }, heapC8After) := by rfl
  ⟨hrun, c8_search_leaves_caller_unchanged heapC8 0 none 10
    { move := some mvG8f6, ponder := none } heapC8After hrun⟩
